import Mathlib

set_option maxHeartbeats 1000000

/-!
Verification development for the go-shopify client library, centred on its
pagination engine: the exhaustive-fetch loop `ListAll` of
`src/payments_transactions.go` and the Link-header cursor extractor that the
repository's tests (`src/product_test.go`, `src/unnamed/part_000`,
`src/unnamed/part_001`) exercise.

Go slices are embedded as a nil flag plus an element list (the tests
distinguish nil from empty slices); Go's `interface{}` options value is an
abstract type parameter `O`; fallible Go calls return `Except`.  The page
fetch performed by each loop iteration (`s.ListWithPagination` with its
ambient context and HTTP transport) is a parameter of the loop embedding.
The extractor itself is not part of the sources at hand, only its tests are,
so it is modelled from the specification (each such definition says so in
its doc comment).
-/

namespace GoShopify

/-- A Go slice value.  Go distinguishes the nil slice from a non-nil empty
slice and the repository's tests rely on that distinction
(`[]PaymentsTransactions(nil)` versus `[]PaymentsTransactions{}`), so the
embedding records the nil flag next to the elements. -/
structure GoSlice (α : Type) where
  isNil : Bool
  elems : List α
deriving DecidableEq, Repr

/-- Go's `append(xs, ys...)`: the result is nil exactly when `xs` is nil and
no element is appended; the elements concatenate. -/
def goAppend {α : Type} (xs ys : GoSlice α) : GoSlice α :=
  ⟨xs.isNil && ys.elems.isEmpty, xs.elems ++ ys.elems⟩

/-- The library's `Pagination` value: nullable next/previous page options
(`*ListOptions` pointers in Go), parameterized by the option type. -/
structure PaginationG (O : Type) where
  nextPageOptions : Option O
  previousPageOptions : Option O
deriving DecidableEq, Repr

/-- The shape of one page fetch (`s.ListWithPagination ctx options` in Go):
from an options value, either an error or the decoded page items together
with the pagination extracted from the response. -/
def FetchFn (α O ε : Type) : Type :=
  O → Except ε (GoSlice α × PaginationG O)

/-- The loop body of `PaymentsTransactionsServiceOp.ListAll`
(src/payments_transactions.go lines 96-110), parameterized by the page fetch.
`fuel` bounds the number of iterations; `none` means the loop would run for
more than `fuel` iterations.  Besides the collector and the returned error
the embedding records the trace of options values passed to the fetch, in
call order, so that statements about which options each iteration uses can
be made. -/
def listAllGo {α O ε : Type} (fetch : FetchFn α O ε) :
    Nat → O → GoSlice α → Option (GoSlice α × Option ε × List O)
  | 0, _, _ => none
  | n + 1, opts, collector =>
    match fetch opts with
    | Except.error e => some (collector, some e, [opts])
    | Except.ok (entities, pagination) =>
      match pagination.nextPageOptions with
      | none => some (goAppend collector entities, none, [opts])
      | some next =>
        match listAllGo fetch n next (goAppend collector entities) with
        | none => none
        | some (res, err, tr) => some (res, err, opts :: tr)

/-- Embedding of `PaymentsTransactionsServiceOp.ListAll`
(src/payments_transactions.go lines 93-113): the collector starts as the
non-nil empty slice `[]PaymentsTransactions{}` and the loop starts from the
caller's options. -/
def listAll {α O ε : Type} (fetch : FetchFn α O ε) (fuel : Nat) (options : O) :
    Option (GoSlice α × Option ε × List O) :=
  listAllGo fetch fuel options ⟨false, []⟩

/-- Embedding of `PaymentsTransactionsServiceOp.ListWithPagination`
(src/payments_transactions.go lines 115-125): on a client error it returns
`(nil, nil, err)`, otherwise the decoded items, the pagination and no
error. -/
def serviceListWithPagination {α O ε : Type}
    (clientResult : Except ε (GoSlice α × PaginationG O)) :
    GoSlice α × Option (PaginationG O) × Option ε :=
  match clientResult with
  | Except.error e => (⟨true, []⟩, none, some e)
  | Except.ok (items, pg) => (items, some pg, none)

/-- Embedding of `PaymentsTransactionsServiceOp.List`
(src/payments_transactions.go lines 84-90): it calls `ListWithPagination`
and on error returns `(nil, err)`, discarding any items. -/
def listService {α O ε : Type}
    (clientResult : Except ε (GoSlice α × PaginationG O)) :
    GoSlice α × Option ε :=
  match (serviceListWithPagination clientResult).2.2 with
  | some e => (⟨true, []⟩, some e)
  | none => ((serviceListWithPagination clientResult).1, none)

/-- Predicate `FetchRun fetch o steps oEnd`: starting from options `o`, every listed
page fetch succeeds with the recorded items, and its pagination's
`nextPageOptions` points at the following page's options; `oEnd` is left as
the options of the next fetch after the listed pages. -/
inductive FetchRun {α O ε : Type} (fetch : FetchFn α O ε) :
    O → List (O × GoSlice α) → O → Prop
  | last (o : O) : FetchRun fetch o [] o
  | step {o o2 oEnd : O} {items : GoSlice α} {pg : PaginationG O}
      {steps : List (O × GoSlice α)} :
      fetch o = Except.ok (items, pg) →
      pg.nextPageOptions = some o2 →
      FetchRun fetch o2 steps oEnd →
      FetchRun fetch o ((o, items) :: steps) oEnd

/-- Predicate `ChainedFrom fetch trace`: along the trace of fetched options, every
options value after the first is exactly the `nextPageOptions` produced by
the (successful) fetch at the preceding options value. -/
def ChainedFrom {α O ε : Type} (fetch : FetchFn α O ε) : List O → Prop
  | [] => True
  | [_] => True
  | o :: o2 :: rest =>
      (∃ items pg, fetch o = Except.ok (items, pg) ∧
        pg.nextPageOptions = some o2) ∧
      ChainedFrom fetch (o2 :: rest)

/-- Drop leading spaces of a link-header entry (the separator comma may be
followed by a space before the next `<url>` part). -/
def dropSpaces (l : List Char) : List Char :=
  l.dropWhile (fun c => c == ' ')

/-- Split a character list at every occurrence of `sep` (Go's
`strings.Split`): the separators are consumed and the pieces, possibly
empty, are returned in order.  The result is always non-empty. -/
def splitOnChar (sep : Char) : List Char → List (List Char)
  | [] => [[]]
  | c :: rest =>
    if c = sep then [] :: splitOnChar sep rest
    else
      match splitOnChar sep rest with
      | [] => [[c]]
      | s :: ss => (c :: s) :: ss

/-- Take characters up to the first occurrence of `sep`: `some (before,
after)` with the separator consumed, or `none` when `sep` does not occur. -/
def takeUntil (sep : Char) : List Char → Option (List Char × List Char)
  | [] => none
  | c :: rest =>
    if c = sep then some ([], rest)
    else
      match takeUntil sep rest with
      | none => none
      | some (a, b) => some (c :: a, b)

/-- Strip an exact expected character sequence from the front of a list,
returning the remainder on success. -/
def dropExact : List Char → List Char → Option (List Char)
  | [], l => some l
  | _ :: _, [] => none
  | p :: ps, c :: cs => if c = p then dropExact ps cs else none

/-- A link relation recognized by the extractor. -/
inductive LinkRel : Type
  | next
  | previous
deriving DecidableEq, Repr

/-- Recognize the `; rel="next"` / `; rel="previous"` tail of a link-header
entry; characters after the closing quote are ignored. -/
def relTail (l : List Char) : Option LinkRel :=
  match dropExact ("; rel=\"next\"".toList) l with
  | some _ => some LinkRel.next
  | none =>
    match dropExact ("; rel=\"previous\"".toList) l with
    | some _ => some LinkRel.previous
    | none => none

/-- Modelled from the spec: one comma-separated entry of the `Link` header
must have the RFC 5988 shape `<url>; rel="next"` or `<url>; rel="previous"`
(the URL part non-empty, optional leading spaces); anything else is invalid
link syntax.  The repository's extractor is not among the sources at hand,
only its tests; this follows the spec's description of the entry syntax. -/
def parseLinkEntry (entry : List Char) : Option (List Char × LinkRel) :=
  match dropSpaces entry with
  | [] => none
  | c :: rest =>
    if c = '<' then
      match takeUntil '>' rest with
      | none => none
      | some (url, rest2) =>
        if url = [] then none
        else
          match relTail rest2 with
          | none => none
          | some r => some (url, r)
    else none

/-- The part of a parsed URL the extractor consumes: its raw query string. -/
structure GoURL where
  rawQuery : List Char
deriving DecidableEq, Repr

/-- A URL scheme is valid when non-empty, starting with a letter and
continuing with letters, digits, `+`, `-` or `.`. -/
def validScheme (s : List Char) : Bool :=
  match s with
  | [] => false
  | c :: rest =>
    c.isAlpha && rest.all (fun d => d.isAlphanum || d == '+' || d == '-' || d == '.')

/-- Scheme validation half of `urlParse`: the base (everything before the
query) is structurally valid unless it carries a colon without a valid
scheme in front of it. -/
def urlParseBase (base query : List Char) : Option GoURL :=
  match takeUntil ':' base with
  | none => some ⟨query⟩
  | some (scheme, _) => if validScheme scheme then some ⟨query⟩ else none

/-- Modelled from the spec: structural URL parsing — the relation URL is
split at the first `?` into a base and a raw query string, and it is
structurally invalid exactly when the base carries a colon without a valid
scheme in front of it (as in the tests' `:invalid.url`, where Go reports a
missing protocol scheme). -/
def urlParse (url : List Char) : Option GoURL :=
  match takeUntil '?' url with
  | none => urlParseBase url []
  | some (b, q) => urlParseBase b q

/-- The quoted form a Go error message embeds a string in. -/
def quoteStr (s : String) : String :=
  "\"" ++ s ++ "\""

/-- Value of a hexadecimal digit, `none` for any other character. -/
def hexVal (c : Char) : Option Nat :=
  if c.isDigit then some (c.toNat - 48)
  else if 'a' ≤ c ∧ c ≤ 'f' then some (c.toNat - 87)
  else if 'A' ≤ c ∧ c ≤ 'F' then some (c.toNat - 55)
  else none

/-- The message of Go's `url.EscapeError`: the at-most-three characters
starting at the offending `%`, quoted. -/
def escapeErrMsg (l : List Char) : String :=
  "invalid URL escape " ++ quoteStr (String.mk l)

/-- Modelled from the spec: query-component percent-decoding (Go's
`url.QueryUnescape` as used by `url.ParseQuery`): `%xy` with two hex digits
decodes to the corresponding character, `+` decodes to a space, a `%` not
followed by two hex digits is a malformed escape whose error message quotes
the `%` and up to two following characters. -/
def queryUnescape : List Char → Except String (List Char)
  | [] => Except.ok []
  | c :: rest =>
    if c = '%' then
      match rest with
      | c1 :: c2 :: rest2 =>
        match hexVal c1, hexVal c2 with
        | some h1, some h2 =>
          (queryUnescape rest2).map (fun l => Char.ofNat (16 * h1 + h2) :: l)
        | _, _ => Except.error (escapeErrMsg ('%' :: List.take 2 rest))
      | _ => Except.error (escapeErrMsg ('%' :: rest))
    else if c = '+' then (queryUnescape rest).map (fun l => ' ' :: l)
    else (queryUnescape rest).map (fun l => c :: l)

/-- Split one `key=value` query segment at its first `=`; a segment without
`=` is a key with empty value. -/
def splitKV (seg : List Char) : List Char × List Char :=
  match takeUntil '=' seg with
  | none => (seg, [])
  | some kv => kv

/-- Modelled from the spec: decoding of a raw query string (Go's
`url.ParseQuery`): segments are split on `&`, empty segments are skipped,
each segment splits at its first `=` and key and value are percent-decoded;
the first decoding failure is propagated unchanged. -/
def parseQuerySegs : List (List Char) → Except String (List (String × String))
  | [] => Except.ok []
  | seg :: rest =>
    if seg = [] then parseQuerySegs rest
    else
      match queryUnescape (splitKV seg).1 with
      | Except.error m => Except.error m
      | Except.ok k =>
        match queryUnescape (splitKV seg).2 with
        | Except.error m => Except.error m
        | Except.ok v =>
          match parseQuerySegs rest with
          | Except.error m => Except.error m
          | Except.ok ps => Except.ok ((String.mk k, String.mk v) :: ps)

/-- Decode a raw query string into its key/value pairs. -/
def parseQuery (raw : List Char) : Except String (List (String × String)) :=
  parseQuerySegs (splitOnChar '&' raw)

/-- First value recorded for a key (Go's `url.Values.Get`), `none` when the
key is absent. -/
def getParam (q : List (String × String)) (key : String) : Option String :=
  match q.find? (fun p => p.1 == key) with
  | none => none
  | some p => some p.2

/-- Numeric value of a digit list, most significant digit first. -/
def digitsToNat (cs : List Char) : Nat :=
  cs.foldl (fun acc c => 10 * acc + (c.toNat - 48)) 0

/-- The message of Go's `strconv.Atoi` syntax error. -/
def atoiMsg (s : String) : String :=
  "strconv.Atoi: parsing " ++ quoteStr s ++ ": invalid syntax"

/-- Modelled from the spec: the page-size limit parameter is parsed as an
unsigned integer (`strconv.Atoi` on the decimal digits); any other input
fails with the verbatim `strconv.Atoi` syntax-error message. -/
def atoi (s : String) : Except String Nat :=
  if !s.toList.isEmpty && s.toList.all Char.isDigit then
    Except.ok (digitsToNat s.toList)
  else Except.error (atoiMsg s)

/-- The typed page options the extractor produces (`ListOptions` restricted
to its pagination fields): the opaque `page_info` cursor token and the page
size limit (0 when the URL carries no limit, matching Go's zero value). -/
structure GoListOptions where
  pageInfo : String
  limit : Nat
deriving DecidableEq, Repr

/-- The pagination value the extractor builds. -/
abbrev GoPagination := PaginationG GoListOptions

/-- The extractor's error kinds: the library's named `ResponseDecodingError`
versus an error of an underlying parsing primitive propagated verbatim. -/
inductive PagError : Type
  | responseDecoding (msg : String)
  | plain (msg : String)
deriving DecidableEq, Repr

/-- Modelled from the spec: build page options from a decoded query — the
`page_info` cursor token is mandatory (`ResponseDecodingError`
"page_info is missing" otherwise); a present `limit` is parsed as an
unsigned integer, its parse error propagated verbatim. -/
def optionsOfQuery (q : List (String × String)) : Except PagError GoListOptions :=
  match getParam q "page_info" with
  | none => Except.error (PagError.responseDecoding "page_info is missing")
  | some pinfo =>
    match getParam q "limit" with
    | none => Except.ok ⟨pinfo, 0⟩
    | some ls =>
      match atoi ls with
      | Except.error m => Except.error (PagError.plain m)
      | Except.ok n => Except.ok ⟨pinfo, n⟩

/-- Record extracted options under their relation. -/
def setRel (pg : GoPagination) (r : LinkRel) (o : GoListOptions) : GoPagination :=
  match r with
  | LinkRel.next => ⟨some o, pg.previousPageOptions⟩
  | LinkRel.previous => ⟨pg.nextPageOptions, some o⟩

/-- Modelled from the spec: processing of one link-header entry — invalid
link syntax is the `ResponseDecodingError` "could not extract pagination
link header", a structurally invalid URL is the `ResponseDecodingError`
"pagination does not contain a valid URL", a query-decoding failure is
propagated unchanged, and a decoded query yields options stored under the
entry's relation. -/
def processEntry (pg : GoPagination) (entry : List Char) : Except PagError GoPagination :=
  match parseLinkEntry entry with
  | none => Except.error (PagError.responseDecoding "could not extract pagination link header")
  | some (url, r) =>
    match urlParse url with
    | none => Except.error (PagError.responseDecoding "pagination does not contain a valid URL")
    | some u =>
      match parseQuery u.rawQuery with
      | Except.error msg => Except.error (PagError.plain msg)
      | Except.ok q =>
        match optionsOfQuery q with
        | Except.error e => Except.error e
        | Except.ok o => Except.ok (setRel pg r o)

/-- Fold `processEntry` over the header's entries, stopping at the first
error. -/
def extractGo (pg : GoPagination) : List (List Char) → Except PagError GoPagination
  | [] => Except.ok pg
  | e :: es =>
    match processEntry pg e with
    | Except.error err => Except.error err
    | Except.ok pg2 => extractGo pg2 es

/-- Modelled from the spec: the Link-header cursor extractor.  An absent
header reaches the extractor as the empty string and yields the empty
pagination with no error; otherwise the header is split on commas and every
entry must process successfully. -/
def extractPagination (header : String) : Except PagError GoPagination :=
  if header = "" then Except.ok ⟨none, none⟩
  else extractGo ⟨none, none⟩ (splitOnChar ',' header.toList)

/-- Modelled from the spec: `client.ListWithPagination` (the paging driver's
single-page primitive, not among the sources at hand) — it performs the
request, decodes the body's items and extracts pagination from the `Link`
response header; an extractor failure aborts the page with that error,
otherwise the decoded items are returned together with the pagination. -/
def clientListWithPagination {α : Type} (decodedItems : GoSlice α)
    (linkHeader : String) : Except PagError (GoSlice α × GoPagination) :=
  match extractPagination linkHeader with
  | Except.error e => Except.error e
  | Except.ok pg => Except.ok (decodedItems, pg)

/-- A character that needs no escaping in a query component: alphanumeric or
one of the unreserved marks `-`, `_`, `.`, `~` (exactly the characters Go's
`url.QueryEscape` leaves untouched); server-issued cursor tokens consist of
such characters. -/
def isPlainChar (c : Char) : Bool :=
  c.isAlphanum || c == '-' || c == '_' || c == '.' || c == '~'

/-- Decimal digit character for `d < 10`. -/
def digitChar (d : Nat) : Char :=
  if d = 0 then '0' else if d = 1 then '1' else if d = 2 then '2'
  else if d = 3 then '3' else if d = 4 then '4' else if d = 5 then '5'
  else if d = 6 then '6' else if d = 7 then '7' else if d = 8 then '8'
  else '9'

/-- Decimal rendering of a natural number, fuelled structurally (the fuel
`n + 1` always suffices for `n`). -/
def natToCharsAux : Nat → Nat → List Char
  | 0, _ => []
  | fuel + 1, n =>
    if n < 10 then [digitChar n]
    else natToCharsAux fuel (n / 10) ++ [digitChar (n % 10)]

/-- Decimal rendering of a natural number. -/
def natToChars (n : Nat) : List Char :=
  natToCharsAux (n + 1) n

/-- Modelled from the spec: query-string encoding of page options (the
go-querystring convention with `omitempty`): the `page_info` cursor first,
then `&limit=` with the decimal limit when the limit is non-zero. -/
def encodeOptions (o : GoListOptions) : List Char :=
  "page_info=".toList ++ o.pageInfo.toList ++
    (if o.limit = 0 then [] else "&limit=".toList ++ natToChars o.limit)

/-- A mock `Link` header advertising `rel="next"` at the mock URL with the
given query string, as the repository's tests build them. -/
def mkNextHeader (qs : List Char) : String :=
  String.mk ('<' :: "http://valid.url?".toList ++ qs ++ '>' :: "; rel=\"next\"".toList)

/-- A two-page fetch used to evaluate the loop theorems on concrete input:
options 0 yields items [1, 2] with a next cursor 1; options 1 yields items
[3, 4] and no next cursor. -/
def demoFetch : FetchFn Nat Nat String := fun o =>
  if o = 0 then Except.ok (⟨false, [1, 2]⟩, ⟨some 1, none⟩)
  else Except.ok (⟨false, [3, 4]⟩, ⟨none, some 0⟩)

/-- A fetch whose second page fails: options 0 yields items [1, 2] with a
next cursor 1; options 1 fails. -/
def demoFetchErr : FetchFn Nat Nat String := fun o =>
  if o = 0 then Except.ok (⟨false, [1, 2]⟩, ⟨some 1, none⟩)
  else Except.error "boom"

/-- A fetch that always fails. -/
def demoFetchErr0 : FetchFn Nat Nat String := fun _ =>
  Except.error "boom"

theorem goAppend_false_isNil {α : Type} (l : List α) (ys : GoSlice α) :
    goAppend ⟨false, l⟩ ys = ⟨false, l ++ ys.elems⟩ := by
  simp [goAppend]

theorem foldl_goAppend_false {α O : Type} :
    ∀ (steps : List (O × GoSlice α)) (l : List α),
      steps.foldl (fun a s => goAppend a s.2) ⟨false, l⟩ =
        ⟨false, l ++ (steps.map (fun s => s.2.elems)).flatten⟩ := by
  intro steps
  induction steps with
  | nil => intro l; simp
  | cons s rest ih =>
    intro l
    simp only [List.foldl_cons, goAppend_false_isNil, ih, List.map_cons,
      List.flatten_cons, List.append_assoc]

theorem listAllGo_run {α O ε : Type} {fetch : FetchFn α O ε} {o oEnd : O}
    {steps : List (O × GoSlice α)} (h : FetchRun fetch o steps oEnd) :
    ∀ (n : Nat) (acc : GoSlice α), steps.length < n →
      listAllGo fetch n o acc =
        Option.map (fun r => (r.1, r.2.1, steps.map Prod.fst ++ r.2.2))
          (listAllGo fetch (n - steps.length) oEnd
            (steps.foldl (fun a s => goAppend a s.2) acc)) := by
  induction h with
  | last o =>
    intro n acc _
    have hmap : ∀ x : Option (GoSlice α × Option ε × List O),
        Option.map (fun r : GoSlice α × Option ε × List O =>
          (r.1, r.2.1, ([] : List (O × GoSlice α)).map Prod.fst ++ r.2.2)) x = x := by
      intro x
      cases x with
      | none => rfl
      | some v => rfl
    simp only [List.length_nil, Nat.sub_zero, List.foldl_nil, hmap]
  | step h1 h2 hrun ih =>
    rename_i o o2 oEnd items pg rest
    intro n acc hlt
    simp only [List.length_cons] at hlt
    obtain ⟨m, rfl⟩ : ∃ m, n = m + 1 := ⟨n - 1, by omega⟩
    simp only [listAllGo, h1, h2]
    rw [ih m (goAppend acc items) (by omega)]
    simp only [List.foldl_cons, List.map_cons, List.length_cons,
      Nat.succ_sub_succ]
    generalize listAllGo fetch (m - rest.length) oEnd
        (List.foldl (fun a s => goAppend a s.2) (goAppend acc items) rest) = x
    cases x with
    | none => rfl
    | some v =>
      obtain ⟨res, err, tr⟩ := v
      simp

theorem listAllGo_chained {α O ε : Type} {fetch : FetchFn α O ε} :
    ∀ (n : Nat) (o : O) (acc : GoSlice α) (res : GoSlice α) (err : Option ε)
      (trace : List O),
      listAllGo fetch n o acc = some (res, err, trace) →
      trace.head? = some o ∧ ChainedFrom fetch trace := by
  intro n
  induction n with
  | zero => intro o acc res err trace h; simp [listAllGo] at h
  | succ n ih =>
    intro o acc res err trace h
    simp only [listAllGo] at h
    cases hf : fetch o with
    | error e =>
      simp only [hf] at h
      simp only [Option.some.injEq, Prod.mk.injEq] at h
      obtain ⟨-, -, htr⟩ := h
      subst htr
      exact ⟨rfl, by simp [ChainedFrom]⟩
    | ok val =>
      obtain ⟨entities, pg⟩ := val
      simp only [hf] at h
      cases hn : pg.nextPageOptions with
      | none =>
        simp only [hn] at h
        simp only [Option.some.injEq, Prod.mk.injEq] at h
        obtain ⟨-, -, htr⟩ := h
        subst htr
        exact ⟨rfl, by simp [ChainedFrom]⟩
      | some next =>
        simp only [hn] at h
        cases hin : listAllGo fetch n next (goAppend acc entities) with
        | none => simp only [hin] at h; simp at h
        | some v =>
          obtain ⟨r2, e2, tr2⟩ := v
          simp only [hin] at h
          simp only [Option.some.injEq, Prod.mk.injEq] at h
          obtain ⟨-, -, htr⟩ := h
          subst htr
          obtain ⟨hhead, hchain⟩ := ih next (goAppend acc entities) r2 e2 tr2 hin
          cases tr2 with
          | nil => simp at hhead
          | cons t tl =>
            simp only [List.head?_cons, Option.some.injEq] at hhead
            subst hhead
            refine ⟨rfl, ?_⟩
            simp only [ChainedFrom]
            exact ⟨⟨entities, pg, hf, hn⟩, hchain⟩

theorem listAllGo_isNil {α O ε : Type} {fetch : FetchFn α O ε} :
    ∀ (n : Nat) (o : O) (acc : GoSlice α) (res : GoSlice α) (err : Option ε)
      (tr : List O), acc.isNil = false →
      listAllGo fetch n o acc = some (res, err, tr) → res.isNil = false := by
  intro n
  induction n with
  | zero => intro o acc res err tr _ h; simp [listAllGo] at h
  | succ n ih =>
    intro o acc res err tr hacc h
    simp only [listAllGo] at h
    cases hf : fetch o with
    | error e =>
      simp only [hf] at h
      simp only [Option.some.injEq, Prod.mk.injEq] at h
      obtain ⟨hres, -, -⟩ := h
      rw [← hres]
      exact hacc
    | ok val =>
      obtain ⟨entities, pg⟩ := val
      simp only [hf] at h
      have happ : (goAppend acc entities).isNil = false := by
        simp [goAppend, hacc]
      cases hn : pg.nextPageOptions with
      | none =>
        simp only [hn] at h
        simp only [Option.some.injEq, Prod.mk.injEq] at h
        obtain ⟨hres, -, -⟩ := h
        rw [← hres]
        exact happ
      | some next =>
        simp only [hn] at h
        cases hin : listAllGo fetch n next (goAppend acc entities) with
        | none => simp only [hin] at h; simp at h
        | some v =>
          obtain ⟨r2, e2, tr2⟩ := v
          simp only [hin] at h
          simp only [Option.some.injEq, Prod.mk.injEq] at h
          obtain ⟨hres, -, -⟩ := h
          rw [← hres]
          exact ih next (goAppend acc entities) r2 e2 tr2 happ hin

/-- Claim C1: when a run of `ListAll` fetches `steps.length` pages
successfully and the next page's fetch fails, `ListAll` returns exactly the
concatenation of the successfully fetched pages' items together with that
error (the partial accumulation is never discarded and the error is never
returned without it); the trace confirms which pages were fetched. -/
theorem listAll_err_returns_partial {α O ε : Type} (fetch : FetchFn α O ε)
    (o0 oEnd : O) (steps : List (O × GoSlice α)) (e : ε) (fuel : Nat)
    (hrun : FetchRun fetch o0 steps oEnd)
    (herr : fetch oEnd = Except.error e)
    (hfuel : steps.length < fuel) :
    listAll fetch fuel o0 =
      some (⟨false, (steps.map (fun s => s.2.elems)).flatten⟩, some e,
        steps.map Prod.fst ++ [oEnd]) := by
  unfold listAll
  rw [listAllGo_run hrun fuel ⟨false, []⟩ hfuel, foldl_goAppend_false]
  obtain ⟨m, hm⟩ : ∃ m, fuel - steps.length = m + 1 :=
    ⟨fuel - steps.length - 1, by omega⟩
  rw [hm]
  simp only [listAllGo, herr, List.nil_append, Option.map_some']

/-- Claim C2: when a run of `ListAll` fetches `steps.length` pages
successfully, each pointing at the next via `NextPageOptions`, and one final
page whose pagination has no `NextPageOptions`, `ListAll` returns the
concatenation of all pages' items in page arrival order (in-page order
preserved) with no error, and the trace shows the loop issued exactly one
fetch per page, stopping right after the final page. -/
theorem listAll_concatenates_pages {α O ε : Type} (fetch : FetchFn α O ε)
    (o0 oEnd : O) (steps : List (O × GoSlice α)) (items : GoSlice α)
    (pg : PaginationG O) (fuel : Nat)
    (hrun : FetchRun fetch o0 steps oEnd)
    (hlast : fetch oEnd = Except.ok (items, pg))
    (hnone : pg.nextPageOptions = none)
    (hfuel : steps.length < fuel) :
    listAll fetch fuel o0 =
      some (⟨false, (steps.map (fun s => s.2.elems)).flatten ++ items.elems⟩,
        none, steps.map Prod.fst ++ [oEnd]) := by
  unfold listAll
  rw [listAllGo_run hrun fuel ⟨false, []⟩ hfuel, foldl_goAppend_false]
  obtain ⟨m, hm⟩ : ∃ m, fuel - steps.length = m + 1 :=
    ⟨fuel - steps.length - 1, by omega⟩
  rw [hm]
  simp only [listAllGo, hlast, hnone, goAppend_false_isNil, List.nil_append,
    Option.map_some']

/-- Claim C3: on every terminating run of `ListAll`, the trace of options
values passed to the page fetch starts with the caller's options, and every
subsequent options value is exactly the `NextPageOptions` value produced by
the previous page's pagination result — the options are replaced wholesale,
so nothing of the caller's original options survives into later iterations
beyond what the next-page options value itself carries. -/
theorem listAll_options_wholesale {α O ε : Type} (fetch : FetchFn α O ε)
    (fuel : Nat) (o0 : O) (res : GoSlice α) (err : Option ε) (trace : List O)
    (h : listAll fetch fuel o0 = some (res, err, trace)) :
    trace.head? = some o0 ∧ ChainedFrom fetch trace :=
  listAllGo_chained fuel o0 ⟨false, []⟩ res err trace h

/-- Claim C10: `ListAll`'s collector starts as a non-nil empty slice, so any
result it returns is a non-nil slice; in particular a failure of the very
first page fetch returns the non-nil empty slice together with the error —
whereas the single-page `List` returns nil items on error. -/
theorem listAll_nonNil_list_nil {α O ε : Type} (fetch : FetchFn α O ε)
    (fuel : Nat) :
    (∀ (o0 : O) (res : GoSlice α) (err : Option ε) (tr : List O),
      listAll fetch fuel o0 = some (res, err, tr) → res.isNil = false) ∧
    (∀ (o0 : O) (e : ε), fetch o0 = Except.error e → 0 < fuel →
      listAll fetch fuel o0 = some (⟨false, []⟩, some e, [o0])) ∧
    (∀ (e : ε),
      listService (Except.error e : Except ε (GoSlice α × PaginationG O)) =
        (⟨true, []⟩, some e)) := by
  refine ⟨?_, ?_, ?_⟩
  · intro o0 res err tr h
    exact listAllGo_isNil fuel o0 ⟨false, []⟩ res err tr rfl h
  · intro o0 e herr hfuel
    obtain ⟨m, rfl⟩ : ∃ m, fuel = m + 1 := ⟨fuel - 1, by omega⟩
    simp [listAll, listAllGo, herr]
  · intro e
    rfl

/-- Concrete instance of claim C1: with a fetch whose second page fails, the
exhaustive fetch returns the first page's items plus the raised error. -/
theorem listAll_err_returns_partial_witness :
    listAll demoFetchErr 5 0 =
      some (⟨false, [1, 2]⟩, some "boom", [0, 1]) :=
  listAll_err_returns_partial demoFetchErr 0 1 [(0, ⟨false, [1, 2]⟩)] "boom" 5
    (FetchRun.step rfl rfl (FetchRun.last 1)) rfl (by decide)

/-- Concrete instance of claim C2: two pages concatenate in order with no
error, and the loop stops after the second page. -/
theorem listAll_concatenates_pages_witness :
    listAll demoFetch 5 0 =
      some (⟨false, [1, 2, 3, 4]⟩, none, [0, 1]) :=
  listAll_concatenates_pages demoFetch 0 1 [(0, ⟨false, [1, 2]⟩)]
    ⟨false, [3, 4]⟩ ⟨none, some 0⟩ 5
    (FetchRun.step rfl rfl (FetchRun.last 1)) rfl rfl (by decide)

/-- Concrete instance of claim C3: on the two-page run the second fetch's
options value is the first page's `NextPageOptions`. -/
theorem listAll_options_wholesale_witness :
    ([0, 1] : List Nat).head? = some 0 ∧ ChainedFrom demoFetch [0, 1] :=
  listAll_options_wholesale demoFetch 5 0 ⟨false, [1, 2, 3, 4]⟩ none [0, 1] rfl

/-- Concrete instance of claim C10: a first-page failure yields the non-nil
empty slice plus the error from `ListAll`, while `List` yields nil items. -/
theorem listAll_nonNil_list_nil_witness :
    listAll demoFetchErr0 1 0 = some (⟨false, []⟩, some "boom", [0]) ∧
    listService (Except.error "boom" :
        Except String (GoSlice Nat × PaginationG Nat)) =
      (⟨true, []⟩, some "boom") ∧
    (⟨false, []⟩ : GoSlice Nat).isNil = false :=
  ⟨(listAll_nonNil_list_nil demoFetchErr0 1).2.1 0 "boom" rfl (by omega),
   (listAll_nonNil_list_nil demoFetchErr0 1).2.2 "boom",
   (listAll_nonNil_list_nil demoFetchErr0 1).1 0 ⟨false, []⟩ (some "boom") [0] rfl⟩

theorem takeUntil_of_not_mem {sep : Char} :
    ∀ {l : List Char}, sep ∉ l → takeUntil sep l = none := by
  intro l
  induction l with
  | nil => intro; rfl
  | cons c rest ih =>
    intro h
    have hc : ¬ c = sep := by rintro rfl; exact h (List.mem_cons_self c rest)
    have hrest : sep ∉ rest := fun m => h (List.mem_cons_of_mem c m)
    simp [takeUntil, hc, ih hrest]

theorem takeUntil_append {sep : Char} :
    ∀ {a : List Char} (b : List Char), sep ∉ a →
      takeUntil sep (a ++ sep :: b) = some (a, b) := by
  intro a
  induction a with
  | nil => intro b _; simp [takeUntil]
  | cons c rest ih =>
    intro b h
    have hc : ¬ c = sep := by rintro rfl; exact h (List.mem_cons_self c rest)
    have hrest : sep ∉ rest := fun m => h (List.mem_cons_of_mem c m)
    simp [takeUntil, hc, ih b hrest]

theorem splitOnChar_of_not_mem {sep : Char} :
    ∀ {l : List Char}, sep ∉ l → splitOnChar sep l = [l] := by
  intro l
  induction l with
  | nil => intro; rfl
  | cons c rest ih =>
    intro h
    have hc : ¬ c = sep := by rintro rfl; exact h (List.mem_cons_self c rest)
    have hrest : sep ∉ rest := fun m => h (List.mem_cons_of_mem c m)
    simp [splitOnChar, hc, ih hrest]

theorem splitOnChar_append {sep : Char} :
    ∀ {a : List Char} (b : List Char), sep ∉ a →
      splitOnChar sep (a ++ sep :: b) = a :: splitOnChar sep b := by
  intro a
  induction a with
  | nil => intro b _; simp [splitOnChar]
  | cons c rest ih =>
    intro b h
    have hc : ¬ c = sep := by rintro rfl; exact h (List.mem_cons_self c rest)
    have hrest : sep ∉ rest := fun m => h (List.mem_cons_of_mem c m)
    simp [splitOnChar, hc, ih b hrest]

theorem dropExact_append : ∀ (p r : List Char), dropExact p (p ++ r) = some r := by
  intro p
  induction p with
  | nil => intro r; rfl
  | cons c rest ih => intro r; simp [dropExact, ih r]

theorem not_mem_of_all_plain {l : List Char} {sep : Char}
    (hsep : isPlainChar sep = false) (h : l.all isPlainChar = true) :
    sep ∉ l := by
  intro hm
  rw [List.all_eq_true] at h
  have := h sep hm
  rw [this] at hsep
  cases hsep

theorem plain_of_digit {c : Char} (h : c.isDigit = true) :
    isPlainChar c = true := by
  simp [isPlainChar, Char.isAlphanum, h]

theorem all_plain_of_all_digit {l : List Char}
    (h : l.all Char.isDigit = true) : l.all isPlainChar = true := by
  rw [List.all_eq_true] at h ⊢
  intro c hc
  exact plain_of_digit (h c hc)

theorem queryUnescape_all_plain :
    ∀ {l : List Char}, l.all isPlainChar = true →
      queryUnescape l = Except.ok l := by
  intro l
  induction l with
  | nil => intro; rfl
  | cons c rest ih =>
    intro h
    simp only [List.all_cons, Bool.and_eq_true] at h
    obtain ⟨hc, hrest⟩ := h
    have h1 : ¬ c = '%' := by intro e; subst e; exact absurd hc (by decide)
    have h2 : ¬ c = '+' := by intro e; subst e; exact absurd hc (by decide)
    unfold queryUnescape
    rw [if_neg h1, if_neg h2, ih hrest]
    rfl

theorem digitChar_isDigit (d : Nat) : (digitChar d).isDigit = true := by
  unfold digitChar
  split_ifs <;> decide

theorem digitChar_toNat {d : Nat} (h : d < 10) :
    (digitChar d).toNat = 48 + d := by
  interval_cases d <;> decide

theorem digitsToNat_append_digit (a : List Char) (c : Char) :
    digitsToNat (a ++ [c]) = 10 * digitsToNat a + (c.toNat - 48) := by
  unfold digitsToNat
  rw [List.foldl_append]
  rfl

theorem natToCharsAux_spec :
    ∀ (fuel n : Nat), n < fuel →
      natToCharsAux fuel n ≠ [] ∧
      (natToCharsAux fuel n).all Char.isDigit = true ∧
      digitsToNat (natToCharsAux fuel n) = n := by
  intro fuel
  induction fuel with
  | zero => intro n h; omega
  | succ fuel ih =>
    intro n hn
    by_cases h10 : n < 10
    · simp only [natToCharsAux, if_pos h10]
      refine ⟨by simp, by simp [digitChar_isDigit], ?_⟩
      have hone : digitsToNat [digitChar n] = 10 * 0 + ((digitChar n).toNat - 48) := rfl
      rw [hone, digitChar_toNat h10]
      omega
    · have hdiv : n / 10 < n := Nat.div_lt_self (by omega) (by omega)
      have hfuel : n / 10 < fuel := by omega
      obtain ⟨hne, hall, hval⟩ := ih (n / 10) hfuel
      simp only [natToCharsAux, if_neg h10]
      refine ⟨by simp, ?_, ?_⟩
      · simp [List.all_append, hall, digitChar_isDigit]
      · rw [digitsToNat_append_digit, hval, digitChar_toNat (by omega)]
        omega

theorem natToChars_spec (n : Nat) :
    natToChars n ≠ [] ∧ (natToChars n).all Char.isDigit = true ∧
      digitsToNat (natToChars n) = n :=
  natToCharsAux_spec (n + 1) n (by omega)

theorem atoi_natToChars (n : Nat) :
    atoi (String.mk (natToChars n)) = Except.ok n := by
  obtain ⟨hne, hall, hval⟩ := natToChars_spec n
  have hempty : (natToChars n).isEmpty = false := by
    cases hh : natToChars n with
    | nil => exact absurd hh hne
    | cons a b => rfl
  have htl : (String.mk (natToChars n)).toList = natToChars n := rfl
  simp [atoi, htl, hempty, hall, hval]

/-- Claim C4: for every non-empty Link header consisting of exactly one
entry that parses as `rel="next"`, whose URL parses with a query carrying a
`page_info` value, the extractor returns `NextPageOptions` holding exactly
that cursor token, together with the numeric `limit` when one is present in
the same query (0, Go's zero value, otherwise), and no
`PreviousPageOptions`. -/
theorem extract_next_cursor (header : String) (e url : List Char)
    (u : GoURL) (q : List (String × String)) (pinfo : String) (n : Nat)
    (h0 : header ≠ "")
    (h1 : splitOnChar ',' header.toList = [e])
    (h2 : parseLinkEntry e = some (url, LinkRel.next))
    (h3 : urlParse url = some u)
    (h4 : parseQuery u.rawQuery = Except.ok q)
    (h5 : getParam q "page_info" = some pinfo)
    (h6 : (getParam q "limit" = none ∧ n = 0) ∨
      (∃ ls, getParam q "limit" = some ls ∧ atoi ls = Except.ok n)) :
    extractPagination header = Except.ok ⟨some ⟨pinfo, n⟩, none⟩ := by
  unfold extractPagination
  rw [if_neg h0, h1]
  simp only [extractGo, processEntry, h2, h3, h4]
  rcases h6 with ⟨hnone, rfl⟩ | ⟨ls, hsome, hatoi⟩
  · simp only [optionsOfQuery, h5, hnone]
    rfl
  · simp only [optionsOfQuery, h5, hsome, hatoi]
    rfl

/-- Claim C5: an absent or empty Link header yields the empty pagination —
both cursor fields nil — with no error, and the page's decoded items are
still returned by the single-page driver. -/
theorem extract_empty_header {α : Type} (items : GoSlice α) :
    clientListWithPagination items "" =
      Except.ok (items, (⟨none, none⟩ : GoPagination)) := rfl

/-- Claim C6: a Link-header entry with a recognized relation and a
structurally valid URL whose query decodes but carries no `page_info`
parameter makes extraction fail with the `ResponseDecodingError`
"page_info is missing"; it is never treated as an empty pagination. -/
theorem extract_missing_pageinfo (header : String) (e url : List Char)
    (es : List (List Char)) (r : LinkRel) (u : GoURL)
    (q : List (String × String))
    (h0 : header ≠ "")
    (h1 : splitOnChar ',' header.toList = e :: es)
    (h2 : parseLinkEntry e = some (url, r))
    (h3 : urlParse url = some u)
    (h4 : parseQuery u.rawQuery = Except.ok q)
    (h5 : getParam q "page_info" = none) :
    extractPagination header =
      Except.error (PagError.responseDecoding "page_info is missing") := by
  unfold extractPagination
  rw [if_neg h0, h1]
  simp only [extractGo, processEntry, h2, h3, h4, optionsOfQuery, h5]

/-- Claim C7: a non-empty Link header whose (first) entry does not parse as
valid `rel="next"`/`rel="previous"` link syntax — including an entry that
yields neither relation — makes extraction fail with the
`ResponseDecodingError` "could not extract pagination link header" instead
of returning an empty pagination. -/
theorem extract_bad_syntax (header : String) (e : List Char)
    (es : List (List Char))
    (h0 : header ≠ "")
    (h1 : splitOnChar ',' header.toList = e :: es)
    (h2 : parseLinkEntry e = none) :
    extractPagination header =
      Except.error
        (PagError.responseDecoding "could not extract pagination link header") := by
  unfold extractPagination
  rw [if_neg h0, h1]
  simp only [extractGo, processEntry, h2]

/-- Claim C8: when the relation URL's query string has malformed
percent-encoding, or when a present `limit` value does not parse as an
unsigned integer, extraction fails with the underlying primitive's error
message propagated verbatim (`PagError.plain`, never wrapped into a
`ResponseDecodingError`). -/
theorem extract_propagates_plain (header : String) (e url : List Char)
    (es : List (List Char)) (r : LinkRel) (u : GoURL)
    (h0 : header ≠ "")
    (h1 : splitOnChar ',' header.toList = e :: es)
    (h2 : parseLinkEntry e = some (url, r))
    (h3 : urlParse url = some u) :
    (∀ msg, parseQuery u.rawQuery = Except.error msg →
      extractPagination header = Except.error (PagError.plain msg)) ∧
    (∀ (q : List (String × String)) (pinfo ls m : String),
      parseQuery u.rawQuery = Except.ok q →
      getParam q "page_info" = some pinfo →
      getParam q "limit" = some ls →
      atoi ls = Except.error m →
      extractPagination header = Except.error (PagError.plain m)) := by
  constructor
  · intro msg hq
    unfold extractPagination
    rw [if_neg h0, h1]
    simp only [extractGo, processEntry, h2, h3, hq]
  · intro q pinfo ls m hq hpi hls hatoi
    unfold extractPagination
    rw [if_neg h0, h1]
    simp only [extractGo, processEntry, h2, h3, hq, optionsOfQuery, hpi, hls,
      hatoi]

/-- Concrete instance of claim C4: the spec's scenario header yields
`NextPageOptions` with cursor "foo" and limit 2 and no previous options. -/
theorem extract_next_cursor_witness :
    extractPagination "<http://valid.url?page_info=foo&limit=2>; rel=\"next\"" =
      Except.ok ⟨some ⟨"foo", 2⟩, none⟩ :=
  extract_next_cursor
    "<http://valid.url?page_info=foo&limit=2>; rel=\"next\""
    ("<http://valid.url?page_info=foo&limit=2>; rel=\"next\"".toList)
    ("http://valid.url?page_info=foo&limit=2".toList)
    ⟨"page_info=foo&limit=2".toList⟩
    [("page_info", "foo"), ("limit", "2")] "foo" 2
    (by decide) rfl rfl rfl rfl rfl (Or.inr ⟨"2", rfl, rfl⟩)

/-- Concrete instance of claim C6: a next-relation URL without a `page_info`
query parameter fails with "page_info is missing". -/
theorem extract_missing_pageinfo_witness :
    extractPagination "<http://valid.url>; rel=\"next\"" =
      Except.error (PagError.responseDecoding "page_info is missing") :=
  extract_missing_pageinfo "<http://valid.url>; rel=\"next\""
    ("<http://valid.url>; rel=\"next\"".toList)
    ("http://valid.url".toList) [] LinkRel.next ⟨[]⟩ []
    (by decide) rfl rfl rfl rfl rfl

/-- Concrete instance of claim C7: the header "invalid link" fails with
"could not extract pagination link header". -/
theorem extract_bad_syntax_witness :
    extractPagination "invalid link" =
      Except.error
        (PagError.responseDecoding "could not extract pagination link header") :=
  extract_bad_syntax "invalid link" ("invalid link".toList) []
    (by decide) rfl rfl

/-- Concrete instances of claim C8: malformed percent-encoding propagates
the escape error verbatim, and a non-numeric limit propagates the
`strconv.Atoi` error verbatim, both unwrapped. -/
theorem extract_propagates_plain_witness :
    extractPagination "<http://valid.url?%invalid_query>; rel=\"next\"" =
      Except.error (PagError.plain "invalid URL escape \"%in\"") ∧
    extractPagination "<http://valid.url?page_info=foo&limit=invalid>; rel=\"next\"" =
      Except.error
        (PagError.plain "strconv.Atoi: parsing \"invalid\": invalid syntax") :=
  ⟨(extract_propagates_plain "<http://valid.url?%invalid_query>; rel=\"next\""
      ("<http://valid.url?%invalid_query>; rel=\"next\"".toList)
      ("http://valid.url?%invalid_query".toList) [] LinkRel.next
      ⟨"%invalid_query".toList⟩
      (by decide) rfl rfl rfl).1 "invalid URL escape \"%in\"" rfl,
   (extract_propagates_plain
      "<http://valid.url?page_info=foo&limit=invalid>; rel=\"next\""
      ("<http://valid.url?page_info=foo&limit=invalid>; rel=\"next\"".toList)
      ("http://valid.url?page_info=foo&limit=invalid".toList) [] LinkRel.next
      ⟨"page_info=foo&limit=invalid".toList⟩
      (by decide) rfl rfl rfl).2
      [("page_info", "foo"), ("limit", "invalid")] "foo" "invalid"
      "strconv.Atoi: parsing \"invalid\": invalid syntax" rfl rfl rfl rfl⟩

theorem stringMk_cons_ne_empty (c : Char) (l : List Char) :
    String.mk (c :: l) ≠ "" := fun h =>
  List.noConfusion (show c :: l = ([] : List Char) from congrArg String.data h)

theorem dropSpaces_cons_of_ne {c : Char} (l : List Char) (h : ¬ c = ' ') :
    dropSpaces (c :: l) = c :: l := by
  have hb : (c == ' ') = false := beq_eq_false_iff_ne.mpr h
  simp [dropSpaces, List.dropWhile_cons, hb]

theorem parseLinkEntry_shape (url tail : List Char) (r : LinkRel)
    (hne : ¬ url = []) (hgt : '>' ∉ url) (hrel : relTail tail = some r) :
    parseLinkEntry ('<' :: (url ++ ('>' :: tail))) = some (url, r) := by
  unfold parseLinkEntry
  rw [dropSpaces_cons_of_ne _ (by decide)]
  simp [@takeUntil_append '>' url tail hgt, hne, hrel]

theorem splitKV_keyval (key val : List Char) (h : '=' ∉ key) :
    splitKV (key ++ ('=' :: val)) = (key, val) := by
  unfold splitKV
  rw [@takeUntil_append '=' key val h]

theorem parseQuerySegs_cons_ok {seg k v : List Char}
    (hne : ¬ seg = []) (hkv : splitKV seg = (k, v))
    (hk : queryUnescape k = Except.ok k) (hv : queryUnescape v = Except.ok v)
    (rest : List (List Char)) {ps : List (String × String)}
    (hrest : parseQuerySegs rest = Except.ok ps) :
    parseQuerySegs (seg :: rest) =
      Except.ok ((String.mk k, String.mk v) :: ps) := by
  unfold parseQuerySegs
  rw [if_neg hne, hkv]
  simp only [hk, hv, hrest]

theorem extract_single_next (qs : List Char) (q : List (String × String))
    (res : GoListOptions)
    (hgt : '>' ∉ qs) (hcm : ',' ∉ qs)
    (hq : parseQuery qs = Except.ok q)
    (hopt : optionsOfQuery q = Except.ok res) :
    extractPagination (mkNextHeader qs) = Except.ok ⟨some res, none⟩ := by
  have h0 : mkNextHeader qs ≠ "" := stringMk_cons_ne_empty '<' _
  unfold extractPagination
  rw [if_neg h0]
  rw [show (mkNextHeader qs).toList =
    '<' :: ("http://valid.url?".toList ++ (qs ++ ('>' :: "; rel=\"next\"".toList)))
    from rfl]
  have hcomma : (',' : Char) ∉
      '<' :: ("http://valid.url?".toList ++
        (qs ++ ('>' :: "; rel=\"next\"".toList))) := by
    intro hm
    simp only [List.mem_cons, List.mem_append] at hm
    rcases hm with h | h | h | h
    · exact absurd h (by decide)
    · exact absurd h (by decide)
    · exact hcm h
    · exact absurd h (by decide)
  rw [splitOnChar_of_not_mem hcomma]
  have hurl_ne : ¬ ("http://valid.url?".toList ++ qs) = [] := by
    intro h
    exact absurd (List.append_eq_nil.mp h).1 (by decide)
  have hgt2 : '>' ∉ ("http://valid.url?".toList ++ qs) := by
    intro hm
    rcases List.mem_append.mp hm with h | h
    · exact absurd h (by decide)
    · exact hgt h
  have hshape := parseLinkEntry_shape ("http://valid.url?".toList ++ qs)
    ("; rel=\"next\"".toList) LinkRel.next hurl_ne hgt2 rfl
  have hu : urlParse ("http://valid.url?".toList ++ qs) = some ⟨qs⟩ := by
    unfold urlParse
    rw [show ("http://valid.url?".toList ++ qs) =
      ("http://valid.url".toList ++ ('?' :: qs)) from by
        rw [show "http://valid.url?".toList =
          "http://valid.url".toList ++ ['?'] from by decide, List.append_assoc]
        rfl]
    rw [@takeUntil_append '?' "http://valid.url".toList qs (by decide)]
    rfl
  simp only [extractGo, processEntry]
  rw [← List.append_assoc]
  simp only [hshape, hu, hq, hopt]
  rfl

/-- Claim C9: any page-options value the extractor can produce — a non-empty
cursor token of query-plain characters, with or without a limit — survives
the round trip: encoding it to a request query string and extracting it back
from a `rel="next"` Link header on a subsequent response returns the same
options value. -/
theorem extract_roundtrip (o : GoListOptions)
    (hne : o.pageInfo ≠ "")
    (hplain : o.pageInfo.toList.all isPlainChar = true) :
    extractPagination (mkNextHeader (encodeOptions o)) =
      Except.ok ⟨some o, none⟩ := by
  obtain ⟨p, n⟩ := o
  have hpl : p.toList.all isPlainChar = true := hplain
  have hpnotmem : ∀ sep : Char, isPlainChar sep = false → sep ∉ p.toList :=
    fun sep hs => not_mem_of_all_plain hs hpl
  by_cases hn0 : n = 0
  · subst hn0
    have henc : encodeOptions ⟨p, 0⟩ =
        "page_info".toList ++ ('=' :: p.toList) := by
      unfold encodeOptions
      rw [if_pos rfl, List.append_nil,
        show "page_info=".toList = "page_info".toList ++ ['='] from by decide,
        List.append_assoc, List.singleton_append]
    rw [henc]
    have hq : parseQuery ("page_info".toList ++ ('=' :: p.toList)) =
        Except.ok [("page_info", p)] := by
      unfold parseQuery
      have hamp : '&' ∉ "page_info".toList ++ ('=' :: p.toList) := by
        intro hm
        simp only [List.mem_cons, List.mem_append] at hm
        rcases hm with h | h | h
        · exact absurd h (by decide)
        · exact absurd h (by decide)
        · exact hpnotmem '&' (by decide) h
      rw [splitOnChar_of_not_mem hamp]
      rw [parseQuerySegs_cons_ok
        (by intro h; exact absurd (List.append_eq_nil.mp h).1 (by decide))
        (splitKV_keyval ("page_info".toList) p.toList (by decide)) rfl
        (queryUnescape_all_plain hpl) [] rfl]
      rfl
    exact extract_single_next _ _ ⟨p, 0⟩
      (by
        intro hm
        simp only [List.mem_cons, List.mem_append] at hm
        rcases hm with h | h | h
        · exact absurd h (by decide)
        · exact absurd h (by decide)
        · exact hpnotmem '>' (by decide) h)
      (by
        intro hm
        simp only [List.mem_cons, List.mem_append] at hm
        rcases hm with h | h | h
        · exact absurd h (by decide)
        · exact absurd h (by decide)
        · exact hpnotmem ',' (by decide) h)
      hq rfl
  · have hdigs : (natToChars n).all Char.isDigit = true := (natToChars_spec n).2.1
    have hdpl : (natToChars n).all isPlainChar = true := all_plain_of_all_digit hdigs
    have hdnotmem : ∀ sep : Char, isPlainChar sep = false → sep ∉ natToChars n :=
      fun sep hs => not_mem_of_all_plain hs hdpl
    have henc : encodeOptions ⟨p, n⟩ =
        ("page_info".toList ++ ('=' :: p.toList)) ++
          ('&' :: ("limit".toList ++ ('=' :: natToChars n))) := by
      unfold encodeOptions
      rw [if_neg hn0,
        show "page_info=".toList = "page_info".toList ++ ['='] from by decide,
        show "&limit=".toList = '&' :: ("limit".toList ++ ['=']) from by decide]
      simp [List.append_assoc, List.singleton_append, List.cons_append]
    rw [henc]
    have hq : parseQuery (("page_info".toList ++ ('=' :: p.toList)) ++
        ('&' :: ("limit".toList ++ ('=' :: natToChars n)))) =
        Except.ok [("page_info", p), ("limit", String.mk (natToChars n))] := by
      unfold parseQuery
      have hamp1 : '&' ∉ "page_info".toList ++ ('=' :: p.toList) := by
        intro hm
        simp only [List.mem_cons, List.mem_append] at hm
        rcases hm with h | h | h
        · exact absurd h (by decide)
        · exact absurd h (by decide)
        · exact hpnotmem '&' (by decide) h
      rw [@splitOnChar_append '&' ("page_info".toList ++ ('=' :: p.toList))
        ("limit".toList ++ ('=' :: natToChars n)) hamp1]
      have hamp2 : '&' ∉ "limit".toList ++ ('=' :: natToChars n) := by
        intro hm
        simp only [List.mem_cons, List.mem_append] at hm
        rcases hm with h | h | h
        · exact absurd h (by decide)
        · exact absurd h (by decide)
        · exact hdnotmem '&' (by decide) h
      rw [splitOnChar_of_not_mem hamp2]
      have hseg2 : parseQuerySegs [("limit".toList ++ ('=' :: natToChars n))] =
          Except.ok [(String.mk ("limit".toList), String.mk (natToChars n))] :=
        parseQuerySegs_cons_ok
          (by intro h; exact absurd (List.append_eq_nil.mp h).1 (by decide))
          (splitKV_keyval ("limit".toList) (natToChars n) (by decide)) rfl
          (queryUnescape_all_plain hdpl) [] rfl
      rw [parseQuerySegs_cons_ok
        (by intro h; exact absurd (List.append_eq_nil.mp h).1 (by decide))
        (splitKV_keyval ("page_info".toList) p.toList (by decide)) rfl
        (queryUnescape_all_plain hpl)
        [("limit".toList ++ ('=' :: natToChars n))] hseg2]
      rfl
    have hopt : optionsOfQuery
        [("page_info", p), ("limit", String.mk (natToChars n))] =
        Except.ok ⟨p, n⟩ := by
      have h1 : getParam
          [("page_info", p), ("limit", String.mk (natToChars n))]
          "page_info" = some p := rfl
      have h2 : getParam
          [("page_info", p), ("limit", String.mk (natToChars n))]
          "limit" = some (String.mk (natToChars n)) := rfl
      simp only [optionsOfQuery, h1, h2, atoi_natToChars n]
    exact extract_single_next _ _ ⟨p, n⟩
      (by
        intro hm
        simp only [List.mem_cons, List.mem_append] at hm
        rcases hm with (h | h | h) | h | h | h | h
        · exact absurd h (by decide)
        · exact absurd h (by decide)
        · exact hpnotmem '>' (by decide) h
        · exact absurd h (by decide)
        · exact absurd h (by decide)
        · exact absurd h (by decide)
        · exact hdnotmem '>' (by decide) h)
      (by
        intro hm
        simp only [List.mem_cons, List.mem_append] at hm
        rcases hm with (h | h | h) | h | h | h | h
        · exact absurd h (by decide)
        · exact absurd h (by decide)
        · exact hpnotmem ',' (by decide) h
        · exact absurd h (by decide)
        · exact absurd h (by decide)
        · exact absurd h (by decide)
        · exact hdnotmem ',' (by decide) h)
      hq hopt

/-- Concrete instance of claim C9: the options value with cursor "foo" and
limit 2 survives the encode-then-extract round trip. -/
theorem extract_roundtrip_witness :
    extractPagination (mkNextHeader (encodeOptions ⟨"foo", 2⟩)) =
      Except.ok ⟨some ⟨"foo", 2⟩, none⟩ :=
  extract_roundtrip ⟨"foo", 2⟩ (by decide) (by decide)

end GoShopify
